import Mathlib

/-!
# Verification of the Vector-Search-Engine content pipeline

A shallow embedding in Lean 4 of the content-extraction and ranking pipeline
of the repository (backend/main.py, backend/utils/tokenizer.py,
backend/utils/fetcher.py, backend/utils/vector_store.py), together with
theorems settling the specification claims about it.

Modelling conventions:
* Python strings are modelled as `String` / `List Char`; Python floats as `ℚ`
  (the float arithmetic of the scoring code is exact decimal arithmetic on the
  magnitudes involved, and `round(x, n)` is modelled as decimal
  round-half-to-even); vector components as `ℝ` where a square root occurs.
* External collaborators (numpy, nltk, BeautifulSoup, requests, weaviate,
  sentence-transformers) are modelled at their interface, as documented at
  each definition.  `np.argsort` and Python's stable `list.sort` are modelled
  by a stable insertion sort.
* The HTML DOM is modelled as a first-child / next-sibling tree so that every
  traversal is structurally recursive (and hence evaluable by `decide`).
-/

namespace VSE

/-! ## Python-style character and string helpers -/

/-- Whitespace characters recognised by Python's `str.split()` / `\s`. -/
def isWs (c : Char) : Bool :=
  c == ' ' || c == '\t' || c == '\n' || c == '\r' || c == '\x0b' || c == '\x0c'

/-- Collapse machinery shared by whitespace normalization and `slugify`:
characters failing `keep` are treated as separators; maximal separator runs
become a single `sep`, and leading/trailing separator runs are dropped.  The
`Bool` state records whether the previous emitted character belongs to a kept
run (so a separator there must be rendered). -/
def collapseAux (keep : Char → Bool) (sep : Char) : Bool → List Char → List Char
  | _, [] => []
  | inWord, c :: cs =>
    if keep c then c :: collapseAux keep sep true cs
    else if inWord then
      match collapseAux keep sep false cs with
      | [] => []
      | r => sep :: r
    else collapseAux keep sep false cs

/-- `' '.join(s.split())` (used by `find_element_containing_text`), which is
also the value of `re.sub(r'\s+', ' ', s).strip()` (used by
`fetch_and_parse_html`): collapse whitespace runs to single spaces and trim. -/
def normL (l : List Char) : List Char := collapseAux (fun c => !(isWs c)) ' ' false l

/-- `normL` on `String`s. -/
def normStr (s : String) : String := String.mk (normL s.toList)

/-- Python `str.split()` with no argument: split on whitespace runs, no empty
pieces. -/
def pySplit : List Char → List (List Char)
  | [] => []
  | c :: cs =>
    if isWs c then pySplit cs
    else
      match cs, pySplit cs with
      | [], _ => [[c]]
      | c' :: _, r =>
        if isWs c' then [c] :: r
        else
          match r with
          | w :: ws => (c :: w) :: ws
          | [] => [[c]]

/-- Python `str.lower()` (ASCII case, which is all the pipeline feeds it). -/
def toLowerL (l : List Char) : List Char := l.map Char.toLower

/-- Python `str.strip()` on a character list. -/
def trimChars (l : List Char) : List Char :=
  ((l.dropWhile isWs).reverse.dropWhile isWs).reverse

/-- `" ".join(words)` on character lists. -/
def joinSp : List (List Char) → List Char
  | [] => []
  | [w] => w
  | w :: ws => w ++ ' ' :: joinSp ws

/-- Does `needle` occur at the start of `hay`? (`Python: hay.startswith(needle)`). -/
def listStartsWith : List Char → List Char → Bool
  | [], _ => true
  | _ :: _, [] => false
  | a :: as, b :: bs => a == b && listStartsWith as bs

/-- Python's `needle in hay` substring test. -/
def listContains : List Char → List Char → Bool
  | [], needle => needle.isEmpty
  | c :: rest, needle => listStartsWith needle (c :: rest) || listContains rest needle

/-- Helper for `countOcc`, fuelled so that it is structurally recursive: scans
`hay` left to right, skipping past each match (non-overlapping count).  Only
called with a non-empty needle and fuel `hay.length`. -/
def countOccAux (needle : List Char) : ℕ → List Char → ℕ
  | 0, _ => 0
  | _ + 1, [] => 0
  | fuel + 1, c :: rest =>
    if listStartsWith needle (c :: rest) then
      1 + countOccAux needle fuel (rest.drop (needle.length - 1))
    else countOccAux needle fuel rest

/-- Python `hay.count(needle)`: number of non-overlapping occurrences
(`"".count` inside a string of length n is n+1, matching Python). -/
def countOcc (hay needle : List Char) : ℕ :=
  if needle.isEmpty then hay.length + 1 else countOccAux needle hay.length hay

/-- Sentence punctuation of `re.split(r'[.!?]+', content)`. -/
def isSentencePunct (c : Char) : Bool := c == '.' || c == '!' || c == '?'

/-- `re.split(r'[.!?]+', content)`: split at maximal runs of `.!?`, keeping
the (possibly empty) pieces between and around them. -/
def splitSentences : List Char → List (List Char)
  | [] => [[]]
  | c :: cs =>
    if isSentencePunct c then
      match cs with
      | [] => [[], []]
      | c' :: cs' =>
        if isSentencePunct c' then splitSentences (c' :: cs')
        else [] :: splitSentences (c' :: cs')
    else
      match splitSentences cs with
      | p :: ps => (c :: p) :: ps
      | [] => [[c]]

/-! ## Chunker (backend/utils/tokenizer.py, `chunk_text`, lines 10-39) -/

/-- The token-accumulation loop of `chunk_text` (tokenizer.py lines 21-37),
generic in the token type: the current chunk is flushed when adding one more
token would exceed `maxT` (and the current chunk is non-empty); the final
partial chunk is always emitted. -/
def chunkLoop (maxT : ℕ) : List α → List α → List (List α)
  | current, [] => if current.isEmpty then [] else [current]
  | current, w :: ws =>
    if maxT < current.length + 1 && !current.isEmpty then
      current :: chunkLoop maxT [w] ws
    else chunkLoop maxT (current ++ [w]) ws

/-- Modelled external collaborator: `nltk.word_tokenize`.  For the
whitespace-separated, punctuation-free texts exercised here it coincides with
whitespace splitting; the universal chunker theorems below are stated over an
arbitrary token list and so are independent of this model. -/
def word_tokenize (text : String) : List (List Char) := pySplit text.toList

/-- `chunk_text(text, max_tokens)` (tokenizer.py lines 10-39): tokenize, fill
chunks greedily up to `max_tokens` tokens, re-join each chunk with single
spaces. -/
def chunk_text (text : String) (max_tokens : ℕ) : List String :=
  if text = "" then []
  else (chunkLoop max_tokens [] (word_tokenize text)).map (fun c => String.mk (joinSp c))

/-! ## DOM model (for BeautifulSoup trees)

A parsed HTML fragment is modelled in first-child / next-sibling form, so that
all traversals are plain structural recursions.  `nilN` ends a sibling chain;
`textN s next` is a text node; `elemN tag classes child next` is an element
with attribute `class` = `classes`, first child `child` and next sibling
`next`.  A `BeautifulSoup` document object is an `elemN "[document]" [] ch nilN`
whose children are the top-level nodes. -/

inductive Node where
  | nilN : Node
  | textN : String → Node → Node
  | elemN : String → List String → Node → Node → Node
deriving DecidableEq, Inhabited

/-- Concatenated raw text of a sibling chain (text nodes in document order). -/
def chainText : Node → List Char
  | .nilN => []
  | .textN s nx => s.toList ++ chainText nx
  | .elemN _ _ ch nx => chainText ch ++ chainText nx

/-- BeautifulSoup `element.get_text()` for a single node: its own subtree's
text, siblings excluded. -/
def getText : Node → List Char
  | .nilN => []
  | .textN s _ => s.toList
  | .elemN _ _ ch _ => chainText ch

/-- The strings of the text nodes of a sibling chain, in document order. -/
def chainStrings : Node → List String
  | .nilN => []
  | .textN s nx => s :: chainStrings nx
  | .elemN _ _ ch nx => chainStrings ch ++ chainStrings nx

/-- BeautifulSoup `element.get_text(separator=" ", strip=True)` for a single
node: its text-node strings, each stripped, empty ones dropped, joined with
single spaces (used by `fetch_and_parse_html`). -/
def getTextSep : Node → String
  | .nilN => ""
  | .textN s _ => String.mk (trimChars s.toList)
  | .elemN _ _ ch _ =>
    String.mk (joinSp (((chainStrings ch).map (fun s => trimChars s.toList)).filter
      (fun l => !l.isEmpty)))

/-- Tag name of a node (`""` for non-elements). -/
def nodeTag : Node → String
  | .nilN => ""
  | .textN _ _ => ""
  | .elemN t _ _ _ => t

/-- `class` attribute of a node. -/
def nodeClasses : Node → List String
  | .nilN => []
  | .textN _ _ => []
  | .elemN _ cls _ _ => cls

/-- The tag list of `soup.find_all([...])` in `find_element_containing_text`
(main.py line 40). -/
def searchTags : List String :=
  ["p", "h1", "h2", "h3", "h4", "h5", "h6", "div", "span", "li", "article", "section"]

/-- All element nodes of a sibling chain's subtrees in document (preorder)
order — the iteration order of BeautifulSoup's `find_all`. -/
def allElems : Node → List Node
  | .nilN => []
  | .textN _ nx => allElems nx
  | .elemN t cls ch nx => Node.elemN t cls ch nx :: (allElems ch ++ allElems nx)

/-- The search of main.py lines 39-46: the first element in document order
among `searchTags` whose normalized text contains `clean`, returned together
with its stack of enclosing elements (innermost first) — the `.parent` chain
that the subsequent upward walk traverses.  `none` when no element matches.
Checking an element before its descendants agrees with `find_all` document
order; a sibling's chain does not include the current element. -/
def findChain (clean : List Char) : Node → Option (List Node)
  | .nilN => none
  | .textN _ nx => findChain clean nx
  | .elemN t cls ch nx =>
    if t ∈ searchTags ∧ listContains (normL (getText (Node.elemN t cls ch nx))) clean then
      some [Node.elemN t cls ch nx]
    else
      match findChain clean ch with
      | some chain => some (chain ++ [Node.elemN t cls ch nx])
      | none => findChain clean nx

/-- One upward walk of main.py (lines 64-72 with `bound = 800` over the first
5 ancestors, lines 76-81 with `bound = 2000` over all of them): the first
`div` on the chain whose normalized text length is under `bound`. -/
def divUpTo (bound : ℕ) (chain : List Node) : Option Node :=
  chain.find? (fun n => nodeTag n == "div" && (normL (getText n)).length < bound)

/-- The two upward walks plus final fallback of main.py lines 59-84: first
`div` within 5 hops whose text is under 800 characters, else first `div` on
the whole ancestor chain under 2000 characters, else the innermost match
itself (`chain.headD soup`; the chain is never empty). -/
def walkUp (soup : Node) (chain : List Node) : Node :=
  match divUpTo 800 (chain.take 5) with
  | some d => d
  | none =>
    match divUpTo 2000 chain with
    | some d => d
    | none => chain.headD soup

/-- `find_element_containing_text(soup, text_chunk)` (main.py lines 33-84).
The Python function returns `str(element)`; since the text of a serialized
fragment is the text of the element, the model returns the element itself and
claims are stated about its text. -/
def find_element_containing_text (soup : Node) (text_chunk : String) : Node :=
  let clean := normL text_chunk.toList
  match findChain clean soup with
  | none => soup
  | some chain =>
    if 500 < clean.length then
      match (allElems soup).find? (fun n =>
          nodeTag n == "div" && !(nodeClasses n).isEmpty &&
          listContains (normL (getText n)) clean &&
          (normL (getText n)).length < 2000) with
      | some d => d
      | none => walkUp soup chain
    else walkUp soup chain

/-! ## Block Extractor (backend/utils/fetcher.py, `fetch_and_parse_html`,
lines 15-131)

The network fetch and the CSS-selector collection of candidate nodes
(`soup.select`, lines 47-56) are external collaborators; the model starts
from the list of candidate blocks in selector order, each candidate carrying
the data the loop reads from the DOM: its `get_text(separator=" ",
strip=True)` output, the heading text found by `block.find(...)` /
`find_all_previous(...)` (lines 74-80, a document-level DOM search), its `id`
attribute and its `class` list.  The per-block `relevant_html` selection
(lines 93-105) only chooses a serialized fragment and is not touched by any
claim. -/

/-- Characters kept by `slugify`'s `[^a-z0-9]` complement (after lowering). -/
def isSlugChar (c : Char) : Bool :=
  ('a' ≤ c && c ≤ 'z') || ('0' ≤ c && c ≤ '9')

/-- `slugify` (fetcher.py lines 7-13): lower-case, replace every run of
non-alphanumeric characters by a single hyphen, trim hyphens. -/
def slugify (s : String) : String :=
  String.mk (collapseAux isSlugChar '-' false (toLowerL s.toList))

/-- A candidate content block, as read off the DOM by the extraction loop. -/
structure Candidate where
  rawText : String
  heading : Option String
  elemId : Option String
  classes : List String
deriving DecidableEq, Inhabited

/-- Python truthiness of an optional string (`None` and `""` are falsy). -/
def truthyStr : Option String → Bool
  | none => false
  | some s => !(s == "")

/-- Path construction for a kept block (fetcher.py lines 83-91). -/
def blockPath (base : String) (c : Candidate) : String :=
  if truthyStr c.heading then base ++ "#" ++ slugify (c.heading.getD "")
  else if truthyStr c.elemId then base ++ "#" ++ slugify (c.elemId.getD "")
  else if !c.classes.isEmpty then
    match c.classes.filter (fun cl => !(cl.startsWith "css-")) with
    | cl :: _ => base ++ "#" ++ slugify cl
    | [] => base
  else base

/-- A kept content block: normalized text plus locator path. -/
structure FBlock where
  text : String
  path : String
deriving DecidableEq, Inhabited

/-- The keep/skip loop of fetcher.py lines 64-111: normalize the candidate's
text, skip it when shorter than 50 characters or equal to an already seen
text, otherwise keep it and remember its text. -/
def dedupKeep (base : String) (seen : List String) : List Candidate → List FBlock
  | [] => []
  | c :: cs =>
    let text := normStr c.rawText
    if text.length < 50 || seen.contains text then dedupKeep base seen cs
    else { text := text, path := blockPath base c } :: dedupKeep base (text :: seen) cs

/-- Ordering of `chunks_data.sort(key=lambda x: len(x["text"]), reverse=True)`
(fetcher.py line 116). -/
def lenDescOrder (a b : FBlock) : Prop := b.text.length ≤ a.text.length

instance : DecidableRel lenDescOrder := fun _ _ => Nat.decLe _ _

/-- The stable descending-length sort of fetcher.py line 116 (Python's sort is
stable). -/
def sortByLenDesc (bs : List FBlock) : List FBlock := List.insertionSort lenDescOrder bs

/-- The stop-word list of fetcher.py line 123. -/
def meaningless_words : List String :=
  ["the", "and", "or", "but", "in", "on", "at", "to", "for", "of", "with", "by"]

/-- The quality filter of fetcher.py lines 120-128: at least 10 words, at
least 5 of the lower-cased words outside the stop-word list. -/
def qualityOk (text : String) : Bool :=
  let word_count := (pySplit text.toList).length
  let meaningful_word_count :=
    ((pySplit (toLowerL text.toList)).filter
      (fun w => !(meaningless_words.contains (String.mk w)))).length
  10 ≤ word_count && 5 ≤ meaningful_word_count

/-- The block list returned by `fetch_and_parse_html` given the candidate
blocks in selector order: dedup + length floor, stable sort by descending
text length, quality filter. -/
def extract_blocks (base : String) (cands : List Candidate) : List FBlock :=
  (sortByLenDesc (dedupKeep base [] cands)).filter (fun b => qualityOk b.text)

/-! ## Python `round(x, n)` -/

/-- Round to the nearest integer, ties to even — the rounding of Python's
`round` (modelled in exact decimal arithmetic). -/
def roundHalfEven (x : ℚ) : ℤ :=
  if x - (⌊x⌋ : ℚ) < 1/2 then ⌊x⌋
  else if (1/2 : ℚ) < x - (⌊x⌋ : ℚ) then ⌊x⌋ + 1
  else if ⌊x⌋ % 2 = 0 then ⌊x⌋ else ⌊x⌋ + 1

/-- Python `round(x, digits)`. -/
def roundTo (digits : ℕ) (x : ℚ) : ℚ :=
  (roundHalfEven (x * 10 ^ digits) : ℚ) / 10 ^ digits

/-! ## Relevance boost (backend/utils/vector_store.py,
`calculate_content_relevance`, lines 20-44) -/

/-- `query.lower().split()` (vector_store.py line 23). -/
def queryTerms (query : String) : List (List Char) := pySplit (toLowerL query.toList)

/-- `sum(1 for term in query_terms if term in content_lower)`
(vector_store.py line 26). -/
def termMatchCount (content query : String) : ℕ :=
  ((queryTerms query).filter (fun t => listContains (toLowerL content.toList) t)).length

/-- `sum(content_lower.count(term) for term in query_terms)`
(vector_store.py line 30). -/
def totalOccurrences (content query : String) : ℕ :=
  ((queryTerms query).map (fun t => countOcc (toLowerL content.toList) t)).sum

/-- The number of sentences of `content` containing every query term
(vector_store.py lines 37-41); the proximity boost adds `0.05` per such
sentence. -/
def allTermSentenceCount (content query : String) : ℕ :=
  ((splitSentences content.toList).filter
    (fun s => (queryTerms query).all (fun t => listContains (toLowerL s) t))).length

/-- `term_ratio` (vector_store.py line 27), guarded against an empty term
list. -/
def termRatio (content query : String) : ℚ :=
  if (queryTerms query).length ≠ 0 then
    (termMatchCount content query : ℚ) / ((queryTerms query).length : ℚ)
  else 0

/-- `frequency_boost = min(0.1, total_occurrences * 0.02)`
(vector_store.py line 31). -/
def frequencyBoost (content query : String) : ℚ :=
  min (1/10) ((totalOccurrences content query : ℚ) * (2/100))

/-- `proximity_boost` before its cap (vector_store.py lines 34-41): `0.05`
per all-terms sentence, only when the query has more than one term. -/
def proximityBoost (content query : String) : ℚ :=
  if 1 < (queryTerms query).length then
    (5/100) * (allTermSentenceCount content query : ℚ)
  else 0

/-- `calculate_content_relevance(content, query)` (vector_store.py
lines 20-44): `term_ratio * 0.15 + frequency_boost + min(0.1,
proximity_boost)`. -/
def calculate_content_relevance (content query : String) : ℚ :=
  termRatio content query * (15/100) + frequencyBoost content query +
    min (1/10) (proximityBoost content query)

/-! ## In-memory store state (vector_store.py globals, `clear_vector_store`
lines 84-89, `embed_and_index_chunks` lines 108-119)

The Weaviate client branches of these functions talk to the external
persistent backend; the in-memory state the search path reads is the pair of
module-level lists `_in_memory_chunks` / `_in_memory_embeddings`.  The
sentence-transformers model is the external collaborator
`embed : String → List ℚ`; `_model.encode(texts)` returns one vector per
text, in order. -/

/-- A chunk record as indexed by main.py lines 112-116. -/
structure ChunkIn where
  text : String
  original_html_context : Node
  path : String
deriving DecidableEq, Inhabited

/-- The in-memory store: `_in_memory_chunks` and `_in_memory_embeddings`. -/
structure StoreState where
  chunks : List ChunkIn
  embeddings : List (List ℚ)
deriving DecidableEq

/-- The state at module initialisation (vector_store.py lines 15-16). -/
def emptyStore : StoreState := ⟨[], []⟩

/-- `clear_vector_store()` (vector_store.py lines 84-89): both in-memory
lists are reset (the Weaviate branch touches only the external backend). -/
def clear_vector_store (_st : StoreState) : StoreState := emptyStore

/-- `embed_and_index_chunks(chunks)` (vector_store.py lines 108-119): embed
all texts and extend both in-memory lists in order. -/
def embed_and_index_chunks (embed : String → List ℚ) (cs : List ChunkIn)
    (st : StoreState) : StoreState :=
  if cs.isEmpty then st
  else ⟨st.chunks ++ cs, st.embeddings ++ cs.map (fun c => embed c.text)⟩

/-- A call against the in-memory store: either a clear or an index request. -/
inductive StoreOp where
  | clearOp : StoreOp
  | indexOp : List ChunkIn → StoreOp

/-- Apply one store call. -/
def applyStoreOp (embed : String → List ℚ) (st : StoreState) : StoreOp → StoreState
  | .clearOp => clear_vector_store st
  | .indexOp cs => embed_and_index_chunks embed cs st

/-- Run a sequence of store calls from a starting state. -/
def runStoreOps (embed : String → List ℚ) (ops : List StoreOp) (st : StoreState) :
    StoreState :=
  ops.foldl (applyStoreOp embed) st

/-! ## Cosine similarity (vector_store.py, `search_chunks_in_store`,
lines 152-166)

`np.linalg.norm` is a square root, so this one computation lives in `ℝ`. -/

/-- `np.dot(q, v)` for the vectors the search loop builds. -/
def dotList (q v : List ℝ) : ℝ := (List.zipWith (fun a b => a * b) q v).sum

/-- Sum of squares, so that `np.linalg.norm v = Real.sqrt (sumSq v)`. -/
def sumSq (v : List ℝ) : ℝ := (v.map (fun x => x * x)).sum

/-- The per-pair similarity of vector_store.py lines 154-164: cosine
similarity `dot / (‖q‖ * ‖v‖)` when both norms are positive, `0` otherwise. -/
noncomputable def cosineSimilarity (q v : List ℝ) : ℝ :=
  if 0 < Real.sqrt (sumSq q) ∧ 0 < Real.sqrt (sumSq v) then
    dotList q v / (Real.sqrt (sumSq q) * Real.sqrt (sumSq v))
  else 0

/-! ## Ranking (vector_store.py, `search_chunks_in_store`, lines 168-186)

`similarities` is the list the loop of lines 152-166 computed, one entry per
indexed chunk; the ranking below is parameterised by it.  `np.argsort`
(default kind) is modelled as the deterministic stable ascending sort, i.e.
ties are ordered by index. -/

/-- The comparison under `np.argsort(similarities)`: ascending by similarity,
ties by position. -/
def argRel (sims : List ℚ) (i j : ℕ) : Prop :=
  sims.getD i 0 < sims.getD j 0 ∨ (sims.getD i 0 = sims.getD j 0 ∧ i ≤ j)

instance argRelDec (sims : List ℚ) : DecidableRel (argRel sims) := fun i j => by
  unfold argRel; infer_instance

instance argRelTotal (sims : List ℚ) : IsTotal ℕ (argRel sims) where
  total i j := by
    unfold argRel
    rcases lt_trichotomy (sims.getD i 0) (sims.getD j 0) with h | h | h
    · exact Or.inl (Or.inl h)
    · rcases Nat.le_total i j with hij | hij
      · exact Or.inl (Or.inr ⟨h, hij⟩)
      · exact Or.inr (Or.inr ⟨h.symm, hij⟩)
    · exact Or.inr (Or.inl h)

instance argRelTrans (sims : List ℚ) : IsTrans ℕ (argRel sims) where
  trans i j k hij hjk := by
    unfold argRel at *
    rcases hij with h1 | ⟨h1, h1'⟩ <;> rcases hjk with h2 | ⟨h2, h2'⟩
    · exact Or.inl (h1.trans h2)
    · exact Or.inl (h2 ▸ h1)
    · exact Or.inl (h1 ▸ h2)
    · exact Or.inr ⟨h1.trans h2, h1'.trans h2'⟩

/-- `np.argsort(similarities)` (vector_store.py line 168): the indices
`0, …, n-1` sorted by ascending similarity. -/
def argsortAsc (sims : List ℚ) : List ℕ :=
  List.insertionSort (argRel sims) (List.range sims.length)

/-- `np.argsort(similarities)[::-1][:top_k]` followed by the
`similarities[idx] > 0` filter of lines 168-172: the indices of the returned
results, in order. -/
def selectedIdx (sims : List ℚ) (top_k : ℕ) : List ℕ :=
  (((argsortAsc sims).reverse).take top_k).filter (fun i => decide (0 < sims.getD i 0))

/-- A returned search result (vector_store.py lines 178-183). -/
structure SearchRow where
  text : String
  original_html_context : Node
  path : String
  score : ℚ
deriving DecidableEq

/-- The result record built for index `idx` (vector_store.py lines 173-183):
`score = round(min(1.0, base_score + content_boost), 4)`. -/
def mkRow (sims : List ℚ) (chunks : List ChunkIn) (query : String) (idx : ℕ) :
    SearchRow where
  text := (chunks.getD idx default).text
  original_html_context := (chunks.getD idx default).original_html_context
  path := (chunks.getD idx default).path
  score := roundTo 4 (min 1 (sims.getD idx 0 +
    calculate_content_relevance (chunks.getD idx default).text query))

/-- The in-memory result list of `search_chunks_in_store` (vector_store.py
lines 168-186), given the similarity list of the loop above it. -/
def searchFromSims (sims : List ℚ) (chunks : List ChunkIn) (query : String)
    (top_k : ℕ) : List SearchRow :=
  (selectedIdx sims top_k).map (mkRow sims chunks query)

/-! ## Search endpoint (backend/main.py, `search_website_content`,
lines 86-151)

External collaborators at the boundary: the page fetch is summarised by a
`FetchOutcome` (success with parsed blocks, `requests` timeout, or
`requests` connection error); the embedding model is `embed`; the store
search `search_chunks_in_store` (which lives in vector_store.py and is
embedded above as `cosineSimilarity`/`searchFromSims`) enters as the
function `searchFn` of the store and the query.  Failures are HTTP status
codes: 404 no content / no chunks, 408 timeout, 502 connection error, 500
internal. -/

/-- Percentage mapping of main.py lines 129-138:
`round(min(95.0, max(60.0, score * 100 * 1.3)), 2)`. -/
def matchPercentage (score : ℚ) : ℚ :=
  roundTo 2 (min 95 (max 60 (score * 100 * (13/10))))

/-- The response record of main.py lines 26-31 and 133-139. -/
structure FinalResult where
  chunk_content : String
  original_html_context : Node
  path : String
  relevance_score : ℚ
  match_percentage : ℚ
deriving DecidableEq

/-- main.py lines 126-139: map raw search rows to response records. -/
def toFinalResults (raw : List SearchRow) : List FinalResult :=
  raw.map fun r =>
    { chunk_content := r.text
      original_html_context := r.original_html_context
      path := r.path
      relevance_score := r.score
      match_percentage := matchPercentage r.score }

/-- A block as returned by `fetch_and_parse_html` to main.py: its selected
HTML re-parsed by `BeautifulSoup(block["html"])` (a document node), its
normalized text and its path. -/
structure PBlock where
  html : Node
  text : String
  path : String

/-- Outcome of `fetch_and_parse_html(payload.url)` at the endpoint boundary. -/
inductive FetchOutcome where
  | success : List PBlock → FetchOutcome
  | timeout : FetchOutcome
  | connectionError : FetchOutcome

/-- main.py lines 100-116: chunk each block's text and localize each chunk's
HTML context. -/
def buildChunks (blocks : List PBlock) : List ChunkIn :=
  blocks.flatMap fun b =>
    (chunk_text b.text 500).map fun tc =>
      { text := tc
        original_html_context := find_element_containing_text b.html tc
        path := b.path }

/-- `search_website_content` (main.py lines 86-151): clear the store, fetch,
extract chunks, index, search, convert percentages; `requests` timeouts and
connection errors are turned into the distinct HTTP failures of
lines 145-148.  Returns the response (error status or result list) and the
final store state. -/
def search_website_content (embed : String → List ℚ)
    (searchFn : StoreState → String → List SearchRow) (query : String)
    (fetched : FetchOutcome) (st : StoreState) :
    (ℕ ⊕ List FinalResult) × StoreState :=
  let st1 := clear_vector_store st
  match fetched with
  | .timeout => (Sum.inl 408, st1)
  | .connectionError => (Sum.inl 502, st1)
  | .success blocks =>
    if blocks.isEmpty then (Sum.inl 404, st1)
    else
      let chunks := buildChunks blocks
      if chunks.isEmpty then (Sum.inl 404, st1)
      else
        let st2 := embed_and_index_chunks embed chunks st1
        (Sum.inr (toFinalResults (searchFn st2 query)), st2)

/-! ## Concrete instances used to witness or refute individual claims -/

/-- A block whose HTML is `<div><span>foo</span><span>bar</span></div>`. -/
def c2CexDiv : Node :=
  Node.elemN "div" []
    (Node.elemN "span" [] (Node.textN "foo" Node.nilN)
      (Node.elemN "span" [] (Node.textN "bar" Node.nilN) Node.nilN))
    Node.nilN

/-- The `BeautifulSoup(block["html"])` document for `c2CexDiv`. -/
def c2CexSoup : Node := Node.elemN "[document]" [] c2CexDiv Node.nilN

/-- A block whose HTML is `<div>hello world</div>`. -/
def c2WitDiv : Node := Node.elemN "div" [] (Node.textN "hello world" Node.nilN) Node.nilN

/-- The document for `c2WitDiv`. -/
def c2WitSoup : Node := Node.elemN "[document]" [] c2WitDiv Node.nilN

/-- A normalized candidate text passing both the 50-character floor and the
quality filter (10 words, ≥ 5 outside the stop-word list). -/
def c4Text : String := "alpha beta gamma delta epsilon zeta eta theta iota kappa"

/-! ## Lemmas: substring tests -/

theorem listStartsWith_iff : ∀ u v : List Char, listStartsWith u v = true ↔ u <+: v
  | [], v => by simp [listStartsWith]
  | a :: as, [] => by simp [listStartsWith]
  | a :: as, b :: bs => by
    simp only [listStartsWith, Bool.and_eq_true, beq_iff_eq, List.cons_prefix_cons,
      listStartsWith_iff as bs]

theorem listContains_iff : ∀ v u : List Char, listContains v u = true ↔ u <:+: v
  | [], u => by simp [listContains, List.isEmpty_iff]
  | c :: cs, u => by
    simp only [listContains, Bool.or_eq_true, listStartsWith_iff, listContains_iff cs u,
      List.infix_cons_iff]

/-- Glue a prefix fact into a suffix fact. -/
theorem inf_of_pre_sfx {a b c : List Char} (h1 : a <+: b) (h2 : b <:+ c) : a <:+: c := by
  obtain ⟨t1, ht1⟩ := h1
  obtain ⟨t2, ht2⟩ := h2
  exact ⟨t2, t1, by rw [← ht2, ← ht1, List.append_assoc]⟩

/-! ## Lemmas: whitespace normalization preserves substrings -/

theorem collapse_sfx_state (keep : Char → Bool) (sep : Char) (v : List Char) :
    collapseAux keep sep false v <:+ collapseAux keep sep true v := by
  cases v with
  | nil => exact List.suffix_refl _
  | cons c cs =>
    by_cases hc : keep c
    · simp [collapseAux, hc]
    · simp only [collapseAux, hc, Bool.false_eq_true, if_false, if_true]
      cases h : collapseAux keep sep false cs with
      | nil => simp
      | cons x xs => exact List.suffix_cons sep (x :: xs)

theorem collapse_sfx_cons (keep : Char → Bool) (sep : Char) (c : Char) (v : List Char) :
    collapseAux keep sep false v <:+ collapseAux keep sep false (c :: v) := by
  by_cases hc : keep c
  · simp only [collapseAux, hc, if_true]
    exact (collapse_sfx_state keep sep v).trans (List.suffix_cons c _)
  · simp [collapseAux, hc]

theorem collapse_sfx_app (keep : Char → Bool) (sep : Char) (p v : List Char) :
    collapseAux keep sep false v <:+ collapseAux keep sep false (p ++ v) := by
  induction p with
  | nil => exact List.suffix_refl _
  | cons c cs ih => exact ih.trans (collapse_sfx_cons keep sep c (cs ++ v))

theorem collapse_pre_app (keep : Char → Bool) (sep : Char) :
    ∀ (v s : List Char) (b : Bool),
      collapseAux keep sep b v <+: collapseAux keep sep b (v ++ s)
  | [], s, b => by simp [collapseAux]
  | c :: cs, s, b => by
    by_cases hc : keep c
    · simpa [collapseAux, hc, List.cons_prefix_cons] using collapse_pre_app keep sep cs s true
    · cases b with
      | false => simpa [collapseAux, hc] using collapse_pre_app keep sep cs s false
      | true =>
        have ih := collapse_pre_app keep sep cs s false
        simp only [List.cons_append, collapseAux, hc, Bool.false_eq_true, if_false, if_true]
        cases h1 : collapseAux keep sep false cs with
        | nil => simp
        | cons x xs =>
          rw [h1] at ih
          cases h2 : collapseAux keep sep false (cs ++ s) with
          | nil =>
            rw [h2] at ih
            exact absurd (List.prefix_nil.mp ih) (by simp)
          | cons y ys =>
            rw [h2] at ih
            simpa [List.cons_prefix_cons] using ih

/-- Whitespace normalization maps substrings to substrings. -/
theorem normL_mono {u v : List Char} (h : u <:+: v) : normL u <:+: normL v := by
  obtain ⟨p, s, rfl⟩ := h
  exact inf_of_pre_sfx (collapse_pre_app _ _ u s false)
    (by simpa [List.append_assoc] using collapse_sfx_app (fun c => !(isWs c)) ' ' p (u ++ s))

/-! ## Lemmas: the element search of the Context Localizer -/

/-- Every element on the stack returned by `findChain` (the matched element
and all its enclosing elements) has the searched text inside its normalized
text; moreover the searched text occurs in the searched chain's own text. -/
theorem findChain_containment (clean : List Char) :
    ∀ (n : Node) (chain : List Node), findChain clean n = some chain →
      chain ≠ [] ∧ (∀ m ∈ chain, clean <:+: normL (getText m)) ∧
        clean <:+: normL (chainText n)
  | .nilN, chain => by simp [findChain]
  | .textN s nx, chain => by
    intro h
    obtain ⟨hne, hmem, htext⟩ := findChain_containment clean nx chain h
    exact ⟨hne, hmem, htext.trans (normL_mono ⟨s.toList, [], by simp [chainText]⟩)⟩
  | .elemN t cls ch nx, chain => by
    intro h
    rw [findChain] at h
    split at h
    · rename_i hguard
      obtain ⟨rfl⟩ : chain = [Node.elemN t cls ch nx] := by
        simpa using h.symm
      have hc : clean <:+: normL (getText (Node.elemN t cls ch nx)) :=
        (listContains_iff _ _).mp hguard.2
      refine ⟨by simp, by simpa using hc, ?_⟩
      exact hc.trans (normL_mono ⟨[], chainText nx, by simp [getText, chainText]⟩)
    · rename_i hguard
      cases hch : findChain clean ch with
      | some chain' =>
        rw [hch] at h
        obtain ⟨rfl⟩ : chain = chain' ++ [Node.elemN t cls ch nx] := by
          simpa using h.symm
        obtain ⟨hne, hmem, htext⟩ := findChain_containment clean ch chain' hch
        have hself : clean <:+: normL (getText (Node.elemN t cls ch nx)) := htext
        refine ⟨by simp, ?_, ?_⟩
        · intro m hm
          rcases List.mem_append.mp hm with hm' | hm'
          · exact hmem m hm'
          · simpa [List.mem_singleton.mp hm'] using hself
        · exact htext.trans (normL_mono ⟨[], chainText nx, by simp [chainText]⟩)
      | none =>
        rw [hch] at h
        obtain ⟨hne, hmem, htext⟩ := findChain_containment clean nx chain h
        exact ⟨hne, hmem, htext.trans (normL_mono ⟨chainText ch, [], by simp [chainText]⟩)⟩

/-- C2 helper: the result of a `divUpTo` walk is an element of the chain. -/
theorem divUpTo_mem {bound : ℕ} {chain : List Node} {d : Node}
    (h : divUpTo bound chain = some d) : d ∈ chain :=
  List.mem_of_find?_eq_some h

/-- C2 helper: the upward walk never leaves the ancestor chain. -/
theorem walkUp_mem (soup : Node) (chain : List Node) (hne : chain ≠ []) :
    walkUp soup chain ∈ chain := by
  unfold walkUp
  cases h1 : divUpTo 800 (chain.take 5) with
  | some d => exact (List.take_sublist 5 chain).subset (divUpTo_mem h1)
  | none =>
    cases h2 : divUpTo 2000 chain with
    | some d => exact divUpTo_mem h2
    | none =>
      obtain ⟨a, as, rfl⟩ := List.exists_cons_of_ne_nil hne
      simp

/-- C2 (corrected): whenever some searched element's normalized text contains
the normalized chunk text, the context chosen by
`find_element_containing_text` also contains it; and when no searched element
contains it, the context is the full source block's HTML (`str(soup)`).  The
unconditional containment stated by the claim fails — see the
counterexample. -/
theorem c2_context_containment (soup : Node) (text_chunk : String) :
    (∀ chain, findChain (normL text_chunk.toList) soup = some chain →
      normL text_chunk.toList <:+:
        normL (getText (find_element_containing_text soup text_chunk))) ∧
    (findChain (normL text_chunk.toList) soup = none →
      find_element_containing_text soup text_chunk = soup) := by
  constructor
  · intro chain h
    obtain ⟨hne, hmem, -⟩ := findChain_containment _ soup chain h
    simp only [find_element_containing_text]
    rw [h]
    dsimp only
    split
    · rename_i hlen
      cases hfind : (allElems soup).find? (fun n =>
          nodeTag n == "div" && !(nodeClasses n).isEmpty &&
          listContains (normL (getText n)) (normL text_chunk.toList) &&
          decide ((normL (getText n)).length < 2000)) with
      | some d =>
        have hp := List.find?_some hfind
        simp only [Bool.and_eq_true] at hp
        exact (listContains_iff _ _).mp hp.1.2
      | none => exact hmem _ (walkUp_mem soup chain hne)
    · exact hmem _ (walkUp_mem soup chain hne)
  · intro h
    simp only [find_element_containing_text]
    rw [h]

/-- C2 witness: a chunk contained in a searched `div` yields a context whose
text contains it. -/
theorem c2_context_containment_witness :
    normL "hello".toList <:+:
      normL (getText (find_element_containing_text c2WitSoup "hello")) :=
  (c2_context_containment c2WitSoup "hello").1 [c2WitDiv, c2WitSoup] (by decide)

/-- C2 counterexample: the chunk "foo bar" is produced (by `chunk_text`) from
the block `<div><span>foo</span><span>bar</span></div>` — whose
separator-joined text is "foo bar" — yet no element's `get_text()` (which has
no separator, here "foobar") contains it, so the fallback context's
normalized text does not contain the normalized chunk text, refuting the
unconditional containment in the claim. -/
theorem c2_context_containment_cex :
    chunk_text (normStr (getTextSep c2CexDiv)) 500 = ["foo bar"] ∧
    ¬ (normL "foo bar".toList <:+:
        normL (getText (find_element_containing_text c2CexSoup "foo bar"))) := by
  constructor
  · decide
  · intro h
    exact absurd ((listContains_iff _ _).mpr h) (by decide)

/-! ## Lemmas: the Chunker -/

/-- The chunk loop emits every token exactly once, in order, after the
current chunk. -/
theorem chunkLoop_join (maxT : ℕ) :
    ∀ (toks current : List α), (chunkLoop maxT current toks).flatten = current ++ toks
  | [], current => by
    cases current with
    | nil => simp [chunkLoop]
    | cons x xs => simp [chunkLoop]
  | w :: ws, current => by
    rw [chunkLoop]
    split
    · rename_i hflush
      simp [chunkLoop_join maxT ws [w]]
    · rw [chunkLoop_join maxT ws (current ++ [w])]
      simp

/-- Every chunk the loop emits is non-empty and within the token bound,
provided the current chunk is. -/
theorem chunkLoop_bounds (maxT : ℕ) (hm : 1 ≤ maxT) :
    ∀ (toks current : List α), current.length ≤ maxT →
      ∀ c ∈ chunkLoop maxT current toks, 1 ≤ c.length ∧ c.length ≤ maxT
  | [], current => by
    intro hcur c hc
    rw [chunkLoop] at hc
    split at hc
    · simp at hc
    · rename_i hne
      rw [List.mem_singleton.mp hc]
      simp only [List.isEmpty_eq_true] at hne
      exact ⟨by cases current with | nil => simp at hne | cons x xs => simp, hcur⟩
  | w :: ws, current => by
    intro hcur c hc
    rw [chunkLoop] at hc
    split at hc
    · rename_i hflush
      simp only [Bool.and_eq_true, decide_eq_true_iff, Bool.not_eq_eq_eq_not,
        Bool.not_true, List.isEmpty_eq_false] at hflush
      rcases List.mem_cons.mp hc with rfl | hc'
      · exact ⟨by cases c with | nil => simp at hflush | cons x xs => simp, hcur⟩
      · exact chunkLoop_bounds maxT hm ws [w] (by simpa using hm) c hc'
    · rename_i hflush
      simp only [Bool.and_eq_true, decide_eq_true_iff, Bool.not_eq_eq_eq_not,
        Bool.not_true, List.isEmpty_eq_false, not_and] at hflush
      refine chunkLoop_bounds maxT hm ws (current ++ [w]) ?_ c hc
      by_cases hcur0 : current = []
      · subst hcur0; simpa using hm
      · have := hflush
        rcases Nat.lt_or_ge maxT (current.length + 1) with hlt | hge
        · exact absurd hcur0 (by simpa [hlt] using hflush)
        · simpa using hge

/-- C3: for every token list and every `max_tokens ≥ 1`, the chunk loop of
`chunk_text` drops and duplicates no token, keeps original order (its chunks
join back to the input), the chunk token counts sum to the input token count,
every chunk has between 1 and `max_tokens` tokens; and
`chunk_text "hello world" 1 = ["hello", "world"]`. -/
theorem c3_chunker :
    (∀ (toks : List (List Char)) (maxT : ℕ), 1 ≤ maxT →
      (chunkLoop maxT [] toks).flatten = toks ∧
      ((chunkLoop maxT [] toks).map List.length).sum = toks.length ∧
      ∀ c ∈ chunkLoop maxT [] toks, 1 ≤ c.length ∧ c.length ≤ maxT) ∧
    chunk_text "hello world" 1 = ["hello", "world"] := by
  constructor
  · intro toks maxT hm
    refine ⟨chunkLoop_join maxT toks [], ?_, chunkLoop_bounds maxT hm toks [] (by simp)⟩
    have hlen := congrArg List.length (chunkLoop_join maxT toks ([] : List (List Char)))
    simpa [List.length_flatten] using hlen
  · decide

/-- C3 witness: the universal part applied to the token list
`[['a'], ['b']]` with `max_tokens = 1`. -/
theorem c3_chunker_witness :
    (chunkLoop 1 [] [['a'], ['b']]).flatten = [['a'], ['b']] :=
  (c3_chunker.1 [['a'], ['b']] 1 (by decide)).1

/-! ## Lemmas: the Block Extractor -/

/-- Every block kept by the dedup loop has text of length at least 50, text
not among the already-seen texts, and text coming from some candidate. -/
theorem dedupKeep_mem (base : String) :
    ∀ (cs : List Candidate) (seen : List String) (b : FBlock),
      b ∈ dedupKeep base seen cs →
        50 ≤ b.text.length ∧ b.text ∉ seen ∧ ∃ c ∈ cs, normStr c.rawText = b.text
  | [], seen, b => by simp [dedupKeep]
  | c :: cs, seen, b => by
    intro hb
    rw [dedupKeep] at hb
    split at hb
    · obtain ⟨h1, h2, cc, hcc, hcc'⟩ := dedupKeep_mem base cs seen b hb
      exact ⟨h1, h2, cc, List.mem_cons_of_mem c hcc, hcc'⟩
    · rename_i hkeep
      simp only [Bool.or_eq_true, decide_eq_true_iff, List.contains, List.elem_iff,
        not_or, Nat.not_lt] at hkeep
      rcases List.mem_cons.mp hb with rfl | hb'
      · exact ⟨hkeep.1, hkeep.2, c, List.mem_cons_self c cs, rfl⟩
      · obtain ⟨h1, h2, cc, hcc, hcc'⟩ := dedupKeep_mem base cs _ b hb'
        exact ⟨h1, fun hmem => h2 (List.mem_cons_of_mem _ hmem), cc,
          List.mem_cons_of_mem c hcc, hcc'⟩

/-- The dedup loop never emits two blocks with the same text. -/
theorem dedupKeep_pairwise (base : String) :
    ∀ (cs : List Candidate) (seen : List String),
      (dedupKeep base seen cs).Pairwise (fun a b => a.text ≠ b.text)
  | [], seen => by simp [dedupKeep]
  | c :: cs, seen => by
    rw [dedupKeep]
    split
    · exact dedupKeep_pairwise base cs seen
    · refine List.Pairwise.cons ?_ (dedupKeep_pairwise base cs _)
      intro b hb heq
      obtain ⟨-, h2, -⟩ := dedupKeep_mem base cs _ b hb
      exact h2 (by simp [← heq])

/-- No block with an already-seen text is ever emitted. -/
theorem dedupKeep_countP_zero (base : String) (cs : List Candidate)
    (seen : List String) (t : String) (ht : t ∈ seen) :
    (dedupKeep base seen cs).countP (fun b => b.text == t) = 0 := by
  rw [List.countP_eq_zero]
  intro b hb
  obtain ⟨-, h2, -⟩ := dedupKeep_mem base cs seen b hb
  simp only [beq_iff_eq]
  rintro rfl
  exact h2 ht

/-- Exactly one block with text `t` survives the dedup loop, provided `t` is
not yet seen, is long enough, and is the normalized text of some candidate
(and none otherwise). -/
theorem dedupKeep_countP (base : String) :
    ∀ (cs : List Candidate) (seen : List String) (t : String), t ∉ seen →
      50 ≤ t.length →
      (dedupKeep base seen cs).countP (fun b => b.text == t) =
        (if cs.any (fun c => normStr c.rawText == t) then 1 else 0)
  | [], seen, t => by simp [dedupKeep]
  | c :: cs, seen, t => by
    intro hseen hlen
    rw [dedupKeep]
    split
    · rename_i hskip
      simp only [Bool.or_eq_true, decide_eq_true_iff, List.contains, List.elem_iff] at hskip
      have hne : ¬ (normStr c.rawText == t) = true := by
        simp only [beq_iff_eq]
        rintro rfl
        rcases hskip with h | h
        · exact absurd hlen (by omega)
        · exact hseen h
      rw [dedupKeep_countP base cs seen t hseen hlen]
      simp [List.any_cons, hne]
    · rename_i hkeep
      by_cases hct : normStr c.rawText = t
      · subst hct
        rw [List.countP_cons_of_pos _ _ (by simp)]
        rw [dedupKeep_countP_zero base cs _ _ (by simp)]
        simp [List.any_cons]
      · rw [List.countP_cons_of_neg _ _ (by simp [hct])]
        rw [dedupKeep_countP base cs _ t
          (by simp only [List.mem_cons, not_or]; exact ⟨fun h => hct h.symm, hseen⟩) hlen]
        simp [List.any_cons, hct]

/-- C4 (corrected): the block list returned by `fetch_and_parse_html` has no
two blocks with identical text and every block's text length is at least the
configured minimum (50); a duplicated candidate text is kept **at most**
once — exactly once if (and only if) it is long enough and passes the quality
filter, but zero times otherwise (see the counterexample). -/
theorem c4_blocks (base : String) (cands : List Candidate) :
    (extract_blocks base cands).Pairwise (fun a b => a.text ≠ b.text) ∧
    (∀ b ∈ extract_blocks base cands, 50 ≤ b.text.length) ∧
    (∀ t : String, 50 ≤ t.length → qualityOk t = true →
      (extract_blocks base cands).countP (fun b => b.text == t) =
        (if cands.any (fun c => normStr c.rawText == t) then 1 else 0)) := by
  have hperm : (sortByLenDesc (dedupKeep base [] cands)).Perm (dedupKeep base [] cands) :=
    List.perm_insertionSort _ _
  refine ⟨?_, ?_, ?_⟩
  · refine List.Pairwise.sublist (List.filter_sublist _) ?_
    exact (hperm.pairwise_iff (fun h => h.symm)).mpr (dedupKeep_pairwise base cands [])
  · intro b hb
    have hb' : b ∈ dedupKeep base [] cands :=
      hperm.mem_iff.mp (List.mem_of_mem_filter hb)
    exact (dedupKeep_mem base cands [] b hb').1
  · intro t hlen hq
    rw [extract_blocks, List.countP_filter, List.countP_congr ?_,
      hperm.countP_eq, dedupKeep_countP base cands [] t (by simp) hlen]
    intro b _
    by_cases hbt : b.text = t
    · simp [hbt, hq]
    · simp [hbt]

/-- C4 witness: two candidates with the same qualifying text — exactly one
block with that text is returned. -/
theorem c4_blocks_witness :
    (extract_blocks "/" [⟨c4Text, none, none, []⟩, ⟨c4Text, none, none, []⟩]).countP
      (fun b => b.text == c4Text) = 1 := by
  have h := (c4_blocks "/" [⟨c4Text, none, none, []⟩, ⟨c4Text, none, none, []⟩]).2.2
    c4Text (by decide) (by decide)
  rw [h, if_pos (by decide)]

/-- C4 counterexample: two candidates with identical text content "hi" —
zero blocks (not exactly one) are kept, because the duplicated text is below
the length floor; this refutes the claim's unconditional "exactly one is
kept". -/
theorem c4_blocks_cex :
    extract_blocks "/" [⟨"hi", none, none, []⟩, ⟨"hi", none, none, []⟩] = [] ∧
    ¬ ((extract_blocks "/" [⟨"hi", none, none, []⟩, ⟨"hi", none, none, []⟩]).countP
        (fun b => b.text == "hi") = 1) := by
  constructor
  · decide
  · decide

/-! ## Lemmas: Python rounding -/

theorem rhe_ge_floor (x : ℚ) : ⌊x⌋ ≤ roundHalfEven x := by
  unfold roundHalfEven
  split_ifs <;> omega

theorem rhe_le_floor_add_one (x : ℚ) : roundHalfEven x ≤ ⌊x⌋ + 1 := by
  unfold roundHalfEven
  split_ifs <;> omega

theorem rhe_le_of_le {x : ℚ} {b : ℤ} (h : x ≤ (b : ℚ)) : roundHalfEven x ≤ b := by
  unfold roundHalfEven
  have hfle : ⌊x⌋ ≤ b := Int.floor_le_floor h |>.trans_eq (Int.floor_intCast b)
  split_ifs with h1 h2 h3
  · exact hfle
  · have hx : (⌊x⌋ : ℚ) < x := by linarith
    have : ⌊x⌋ < b := by exact_mod_cast hx.trans_le h
    omega
  · exact hfle
  · have hx : (⌊x⌋ : ℚ) < x := by linarith
    have : ⌊x⌋ < b := by exact_mod_cast hx.trans_le h
    omega

theorem le_rhe_of_le {a : ℤ} {x : ℚ} (h : (a : ℚ) ≤ x) : a ≤ roundHalfEven x :=
  le_trans (Int.le_floor.mpr h) (rhe_ge_floor x)

theorem rhe_ge_sub_half (x : ℚ) : x - 1/2 ≤ (roundHalfEven x : ℚ) := by
  have hfl := Int.floor_le x
  have hfl' := Int.lt_floor_add_one x
  unfold roundHalfEven
  split_ifs with h1 h2 h3 <;> push_cast <;> linarith

theorem rhe_mono {x y : ℚ} (h : x ≤ y) : roundHalfEven x ≤ roundHalfEven y := by
  have hfl : ⌊x⌋ ≤ ⌊y⌋ := Int.floor_le_floor h
  rcases lt_or_eq_of_le hfl with hlt | heq
  · have h1 := rhe_le_floor_add_one x
    have h2 := rhe_ge_floor y
    omega
  · unfold roundHalfEven
    rw [← heq]
    split_ifs <;> first | omega | linarith

theorem roundTo_mono (n : ℕ) {x y : ℚ} (h : x ≤ y) : roundTo n x ≤ roundTo n y := by
  unfold roundTo
  have hp : (0 : ℚ) < 10 ^ n := by positivity
  refine div_le_div_of_nonneg_right ?_ hp.le |>.trans_eq rfl
  exact_mod_cast rhe_mono (mul_le_mul_of_nonneg_right h (le_of_lt hp))

theorem roundTo_le_int (n : ℕ) {x : ℚ} {b : ℤ} (h : x ≤ (b : ℚ)) :
    roundTo n x ≤ (b : ℚ) := by
  unfold roundTo
  have hp : (0 : ℚ) < 10 ^ n := by positivity
  rw [div_le_iff₀ hp]
  have : roundHalfEven (x * 10 ^ n) ≤ b * 10 ^ n := by
    refine rhe_le_of_le ?_
    push_cast
    exact mul_le_mul_of_nonneg_right h (le_of_lt hp)
  exact_mod_cast this

theorem le_roundTo_int (n : ℕ) {x : ℚ} {a : ℤ} (h : (a : ℚ) ≤ x) :
    (a : ℚ) ≤ roundTo n x := by
  unfold roundTo
  have hp : (0 : ℚ) < 10 ^ n := by positivity
  rw [le_div_iff₀ hp]
  have : a * 10 ^ n ≤ roundHalfEven (x * 10 ^ n) := by
    refine le_rhe_of_le ?_
    push_cast
    exact mul_le_mul_of_nonneg_right h (le_of_lt hp)
  exact_mod_cast this

theorem roundTo_ge_sub (n : ℕ) (x : ℚ) : x - 1 / (2 * 10 ^ n) ≤ roundTo n x := by
  unfold roundTo
  have hp : (0 : ℚ) < 10 ^ n := by positivity
  rw [le_div_iff₀ hp, sub_mul, div_mul_eq_mul_div, one_mul]
  have h := rhe_ge_sub_half (x * 10 ^ n)
  have h2 : (10:ℚ) ^ n / (2 * 10 ^ n) = 1/2 := by
    field_simp
    ring
  linarith [h, h2.le]

/-! ## Lemmas: the relevance boost -/

theorem termRatio_nonneg (content query : String) : 0 ≤ termRatio content query := by
  unfold termRatio
  split_ifs
  · positivity
  · exact le_refl 0

theorem termRatio_le_one (content query : String) : termRatio content query ≤ 1 := by
  unfold termRatio
  split_ifs with h
  · rw [div_le_one (by exact_mod_cast Nat.pos_of_ne_zero h)]
    exact_mod_cast List.length_filter_le _ _
  · exact zero_le_one

theorem frequencyBoost_nonneg (content query : String) : 0 ≤ frequencyBoost content query :=
  le_min (by norm_num) (by positivity)

theorem frequencyBoost_le (content query : String) : frequencyBoost content query ≤ 1/10 :=
  min_le_left _ _

theorem proximityBoost_nonneg (content query : String) : 0 ≤ proximityBoost content query := by
  unfold proximityBoost
  split_ifs
  · positivity
  · exact le_refl 0

theorem boost_nonneg (content query : String) : 0 ≤ calculate_content_relevance content query := by
  unfold calculate_content_relevance
  have h1 := termRatio_nonneg content query
  have h2 := frequencyBoost_nonneg content query
  have h3 := le_min (by norm_num : (0:ℚ) ≤ 1/10) (proximityBoost_nonneg content query)
  linarith

theorem boost_le (content query : String) : calculate_content_relevance content query ≤ 7/20 := by
  unfold calculate_content_relevance
  have h1 := termRatio_le_one content query
  have h2 := frequencyBoost_le content query
  have h3 : min (1/10 : ℚ) (proximityBoost content query) ≤ 1/10 := min_le_left _ _
  nlinarith [termRatio_nonneg content query]

theorem toLower_ws {c : Char} (h : isWs c = true) : Char.toLower c = c := by
  simp only [isWs, Bool.or_eq_true, beq_iff_eq] at h
  rcases h with ((((rfl | rfl) | rfl) | rfl) | rfl) | rfl <;> decide

theorem pySplit_all_ws : ∀ l : List Char, (∀ c ∈ l, isWs c = true) → pySplit l = []
  | [], _ => rfl
  | c :: cs, h => by
    rw [pySplit.eq_def]
    dsimp only
    rw [if_pos (h c (List.mem_cons_self c cs))]
    exact pySplit_all_ws cs (fun c' hc' => h c' (List.mem_cons_of_mem c hc'))

/-- A whitespace-only query yields no query terms. -/
theorem queryTerms_ws {query : String} (h : query.toList.all isWs = true) :
    queryTerms query = [] := by
  unfold queryTerms
  refine pySplit_all_ws _ ?_
  intro c hc
  simp only [toLowerL, List.mem_map] at hc
  obtain ⟨c', hc', rfl⟩ := hc
  have hw : isWs c' = true := by
    rw [List.all_eq_true] at h
    exact h c' hc'
  rw [toLower_ws hw]
  exact hw

/-- C10: the relevance boost always lies in `[0, 0.35]`: the term-coverage
part is in `[0, 0.15]`, the capped term-frequency part in `[0, 0.1]`, the
capped proximity part in `[0, 0.1]`, and a whitespace-only (or empty) query
yields boost 0 with the division guarded. -/
theorem c10_boost_bounds (content query : String) :
    (0 ≤ termRatio content query * (15/100) ∧ termRatio content query * (15/100) ≤ 15/100) ∧
    (0 ≤ frequencyBoost content query ∧ frequencyBoost content query ≤ 1/10) ∧
    (0 ≤ min (1/10) (proximityBoost content query) ∧
      min (1/10) (proximityBoost content query) ≤ 1/10) ∧
    (0 ≤ calculate_content_relevance content query ∧
      calculate_content_relevance content query ≤ 7/20) ∧
    (query.toList.all isWs = true → calculate_content_relevance content query = 0) := by
  refine ⟨⟨?_, ?_⟩, ⟨frequencyBoost_nonneg _ _, frequencyBoost_le _ _⟩,
    ⟨le_min (by norm_num) (proximityBoost_nonneg _ _), min_le_left _ _⟩,
    ⟨boost_nonneg _ _, boost_le _ _⟩, ?_⟩
  · have := termRatio_nonneg content query
    positivity
  · nlinarith [termRatio_le_one content query, termRatio_nonneg content query]
  · intro hws
    have hq := queryTerms_ws hws
    unfold calculate_content_relevance termRatio frequencyBoost proximityBoost
      totalOccurrences
    rw [hq]
    norm_num

/-- C10 witness: the whitespace-only-query case applied at a concrete input. -/
theorem c10_boost_bounds_witness :
    calculate_content_relevance "abc" "   " = 0 :=
  (c10_boost_bounds "abc" "   ").2.2.2.2 (by decide)

/-! ## Lemmas: ranking order -/

/-- The selected result indices are pairwise in descending-similarity order
(ties in reverse index order), because `np.argsort` sorts ascending and the
code reverses. -/
theorem selectedIdx_pairwise (sims : List ℚ) (top_k : ℕ) :
    (selectedIdx sims top_k).Pairwise (fun i j => argRel sims j i) := by
  have hs : (argsortAsc sims).Pairwise (argRel sims) :=
    List.sorted_insertionSort (argRel sims) (List.range sims.length)
  have hrev : ((argsortAsc sims).reverse).Pairwise (fun i j => argRel sims j i) :=
    List.pairwise_reverse.mpr hs
  exact ((hrev.sublist (List.take_sublist _ _)).sublist (List.filter_sublist _))

/-- C1 (corrected): the result list of `search_chunks_in_store` is the
selected indices mapped to result rows, has at most `top_k` entries, and is
sorted non-increasingly by the **base** (pre-boost) similarity, with ties in
base similarity emitted in **reverse** insertion order; the returned
`raw_score` (which includes the boost) is *not* sorted — see the
counterexample. -/
theorem c1_ranking_order (sims : List ℚ) (chunks : List ChunkIn) (query : String)
    (top_k : ℕ) :
    searchFromSims sims chunks query top_k =
      (selectedIdx sims top_k).map (mkRow sims chunks query) ∧
    (searchFromSims sims chunks query top_k).length ≤ top_k ∧
    (selectedIdx sims top_k).Pairwise (fun i j =>
      sims.getD j 0 < sims.getD i 0 ∨ (sims.getD j 0 = sims.getD i 0 ∧ j ≤ i)) := by
  refine ⟨rfl, ?_, ?_⟩
  · rw [searchFromSims, List.length_map]
    exact le_trans (List.length_filter_le _ _) (List.length_take_le _ _)
  · exact (selectedIdx_pairwise sims top_k).imp (fun h => h)

/-- C1 counterexample: with base similarities `[0.5, 0.45]` and a second
chunk whose text strongly matches the query, the returned scores are
`[0.5, 0.73]` — an inversion in `raw_score`, because the code sorts by the
pre-boost similarity. -/
theorem c1_ranking_order_cex :
    ¬ (((searchFromSims [1/2, 9/20]
          [⟨"zzz", Node.nilN, "/"⟩, ⟨"apple banana apple banana", Node.nilN, "/"⟩]
          "apple banana" 10).map (fun r => r.score)).Chain' (fun a b => b ≤ a)) := by
  have hr01 : ¬ argRel [(1:ℚ)/2, 9/20] 0 1 := by
    unfold argRel
    simp only [List.getD_cons_zero, List.getD_cons_succ]
    push_neg
    norm_num
  have hsort : argsortAsc [(1:ℚ)/2, 9/20] = [1, 0] := by
    unfold argsortAsc
    rw [show List.range (List.length [(1:ℚ)/2, 9/20]) = [0, 1] from rfl]
    simp only [List.insertionSort, List.orderedInsert]
    rw [if_neg hr01]
  have hsel : selectedIdx [(1:ℚ)/2, 9/20] 10 = [0, 1] := by
    unfold selectedIdx
    rw [hsort]
    rw [show ([1, 0] : List ℕ).reverse.take 10 = [0, 1] from rfl]
    simp only [List.filter_cons, List.filter_nil, List.getD_cons_zero, List.getD_cons_succ,
      decide_eq_true_eq]
    norm_num
  have hb0 : calculate_content_relevance "zzz" "apple banana" = 0 := by
    have h1 : termMatchCount "zzz" "apple banana" = 0 := by decide
    have h2 : (queryTerms "apple banana").length = 2 := by decide
    have h3 : totalOccurrences "zzz" "apple banana" = 0 := by decide
    have h4 : allTermSentenceCount "zzz" "apple banana" = 0 := by decide
    unfold calculate_content_relevance termRatio frequencyBoost proximityBoost
    rw [h1, h2, h3, h4]
    norm_num [min_def]
  have hb1 : calculate_content_relevance "apple banana apple banana" "apple banana"
      = 28/100 := by
    have h1 : termMatchCount "apple banana apple banana" "apple banana" = 2 := by decide
    have h2 : (queryTerms "apple banana").length = 2 := by decide
    have h3 : totalOccurrences "apple banana apple banana" "apple banana" = 4 := by decide
    have h4 : allTermSentenceCount "apple banana apple banana" "apple banana" = 1 := by
      decide
    unfold calculate_content_relevance termRatio frequencyBoost proximityBoost
    rw [h1, h2, h3, h4]
    norm_num [min_def]
  have hmap : (searchFromSims [1/2, 9/20]
        [⟨"zzz", Node.nilN, "/"⟩, ⟨"apple banana apple banana", Node.nilN, "/"⟩]
        "apple banana" 10).map (fun r => r.score) = [1/2, 73/100] := by
    unfold searchFromSims
    rw [hsel]
    simp only [List.map_cons, List.map_nil, mkRow, List.getD_cons_zero, List.getD_cons_succ]
    rw [hb0, hb1]
    have hs0 : roundTo 4 (min 1 ((1:ℚ)/2 + 0)) = 1/2 := by
      unfold roundTo roundHalfEven
      norm_num [min_def]
    have hs1 : roundTo 4 (min 1 ((9:ℚ)/20 + 28/100)) = 73/100 := by
      unfold roundTo roundHalfEven
      norm_num [min_def]
    rw [hs0, hs1]
  rw [hmap]
  simp only [List.chain'_cons, List.chain'_singleton, and_true]
  norm_num

/-! ## C5: the returned score versus `min(1.0, base + boost)` -/

/-- The score field of a result row, as the code computes it. -/
theorem mkRow_score (sims : List ℚ) (chunks : List ChunkIn) (query : String) (idx : ℕ) :
    (mkRow sims chunks query idx).score =
      roundTo 4 (min 1 (sims.getD idx 0 +
        calculate_content_relevance (chunks.getD idx default).text query)) := rfl

/-- C5 (corrected): every returned row's score is
`round(min(1.0, base + boost), 4)`; it never exceeds `1.0`, and (when the
base similarity is at most 1, as a cosine similarity is) it falls below the
base similarity by at most the rounding error `1/20000` — but it can fall
below it, see the counterexample. -/
theorem c5_boosted_score (sims : List ℚ) (chunks : List ChunkIn) (query : String)
    (top_k : ℕ) (idx : ℕ) (hidx : idx ∈ selectedIdx sims top_k)
    (hbase : sims.getD idx 0 ≤ 1) :
    mkRow sims chunks query idx ∈ searchFromSims sims chunks query top_k ∧
    (mkRow sims chunks query idx).score =
      roundTo 4 (min 1 (sims.getD idx 0 +
        calculate_content_relevance (chunks.getD idx default).text query)) ∧
    (mkRow sims chunks query idx).score ≤ 1 ∧
    sims.getD idx 0 - 1/20000 ≤ (mkRow sims chunks query idx).score := by
  refine ⟨List.mem_map_of_mem _ hidx, rfl, ?_, ?_⟩
  · rw [mkRow_score]
    have h : min (1:ℚ) (sims.getD idx 0 +
        calculate_content_relevance (chunks.getD idx default).text query) ≤ ((1:ℤ):ℚ) := by
      push_cast
      exact min_le_left _ _
    simpa using roundTo_le_int 4 h
  · rw [mkRow_score]
    have hmin : sims.getD idx 0 ≤ min 1 (sims.getD idx 0 +
        calculate_content_relevance (chunks.getD idx default).text query) :=
      le_min hbase (by linarith [boost_nonneg (chunks.getD idx default).text query])
    have hr := roundTo_ge_sub 4 (min 1 (sims.getD idx 0 +
        calculate_content_relevance (chunks.getD idx default).text query))
    rw [show (2 * (10:ℚ) ^ (4:ℕ)) = 20000 by norm_num] at hr
    linarith

/-- C5 witness: the theorem applied to a single indexed chunk with base
similarity 1. -/
theorem c5_boosted_score_witness :
    mkRow [1] [⟨"a", Node.nilN, "/"⟩] "a" 0 ∈
      searchFromSims [1] [⟨"a", Node.nilN, "/"⟩] "a" 1 :=
  (c5_boosted_score [1] [⟨"a", Node.nilN, "/"⟩] "a" 1 0 (by decide) (by norm_num)).1

/-- C5 counterexample: base similarity `0.00001` with zero boost — the
returned score is `round(0.00001, 4) = 0.0`, which differs from
`min(1.0, base + boost) = 0.00001` and falls below the base similarity. -/
theorem c5_boosted_score_cex :
    (searchFromSims [1/100000] [⟨"a", Node.nilN, "/"⟩] "b" 10).map (fun r => r.score)
      = [0] ∧
    min 1 ((1:ℚ)/100000 + calculate_content_relevance "a" "b") = 1/100000 ∧
    ¬ ((0 : ℚ) = 1/100000) := by
  have hb : calculate_content_relevance "a" "b" = 0 := by
    have h1 : termMatchCount "a" "b" = 0 := by decide
    have h2 : (queryTerms "b").length = 1 := by decide
    have h3 : totalOccurrences "a" "b" = 0 := by decide
    unfold calculate_content_relevance termRatio frequencyBoost proximityBoost
    rw [h1, h2, h3]
    norm_num [min_def]
  refine ⟨?_, by rw [hb]; norm_num [min_def], by norm_num⟩
  have hsort : argsortAsc [(1:ℚ)/100000] = [0] := by
    unfold argsortAsc
    rw [show List.range (List.length [(1:ℚ)/100000]) = [0] from rfl]
    simp [List.insertionSort, List.orderedInsert]
  have hsel : selectedIdx [(1:ℚ)/100000] 10 = [0] := by
    unfold selectedIdx
    rw [hsort]
    rw [show ([0] : List ℕ).reverse.take 10 = [0] from rfl]
    simp only [List.filter_cons, List.filter_nil, List.getD_cons_zero, decide_eq_true_eq]
    norm_num
  unfold searchFromSims
  rw [hsel]
  simp only [List.map_cons, List.map_nil, mkRow, List.getD_cons_zero]
  rw [hb]
  have hs : roundTo 4 (min 1 ((1:ℚ)/100000 + 0)) = 0 := by
    unfold roundTo roundHalfEven
    norm_num [min_def]
  rw [hs]

/-! ## C6: the percentage mapping -/

/-- C6: every result the endpoint produces has `match_percentage` within the
configured presentation bounds `[60, 95]`, and the percentage mapping is a
non-decreasing function of `raw_score`. -/
theorem c6_percentage (raw : List SearchRow) :
    (∀ r ∈ toFinalResults raw, 60 ≤ r.match_percentage ∧ r.match_percentage ≤ 95) ∧
    (∀ s t : ℚ, s ≤ t → matchPercentage s ≤ matchPercentage t) := by
  constructor
  · intro r hr
    simp only [toFinalResults, List.mem_map] at hr
    obtain ⟨row, -, rfl⟩ := hr
    dsimp only [matchPercentage]
    constructor
    · have h : ((60:ℤ):ℚ) ≤ min 95 (max 60 (row.score * 100 * (13/10))) :=
        le_min (by norm_num) (by push_cast; exact le_max_left _ _)
      simpa using le_roundTo_int 2 h
    · have h : min (95:ℚ) (max 60 (row.score * 100 * (13/10))) ≤ ((95:ℤ):ℚ) := by
        push_cast
        exact min_le_left _ _
      simpa using roundTo_le_int 2 h
  · intro s t hst
    unfold matchPercentage
    refine roundTo_mono 2 (min_le_min (le_refl _) (max_le_max (le_refl _) ?_))
    nlinarith

/-- C6 witness: bounds at score `1/2` and monotonicity from score 0 to 1. -/
theorem c6_percentage_witness :
    (60 ≤ matchPercentage (1/2) ∧ matchPercentage (1/2) ≤ 95) ∧
    matchPercentage 0 ≤ matchPercentage 1 := by
  constructor
  · have h := (c6_percentage [⟨"", Node.nilN, "", 1/2⟩]).1
      ⟨"", Node.nilN, "", 1/2, matchPercentage (1/2)⟩ (by simp [toFinalResults])
    simpa using h
  · exact (c6_percentage []).2 0 1 (by norm_num)

/-! ## C7: connection failure leaves no partial index -/

/-- C7: when the fetch fails with a connection error the endpoint fails with
status 502, distinct from the timeout failure (408) and the generic internal
failure (500), and the final store state is the cleared store — no chunks or
embeddings are indexed for the request. -/
theorem c7_connection_error (embed : String → List ℚ)
    (searchFn : StoreState → String → List SearchRow) (query : String)
    (st : StoreState) :
    search_website_content embed searchFn query FetchOutcome.connectionError st
      = (Sum.inl 502, emptyStore) ∧
    search_website_content embed searchFn query FetchOutcome.timeout st
      = (Sum.inl 408, emptyStore) ∧
    ((502 : ℕ) ≠ 408 ∧ (502 : ℕ) ≠ 500 ∧ (408 : ℕ) ≠ 500) ∧
    emptyStore.chunks = [] ∧ emptyStore.embeddings = [] :=
  ⟨rfl, rfl, ⟨by decide, by decide, by decide⟩, rfl, rfl⟩

/-! ## C8: the zero-norm guard of the similarity computation -/

/-- C8: the in-memory similarity computation returns 0 whenever either
vector's norm is zero, and the cosine division is performed only when both
norms are positive — in which case the divisor is provably non-zero. -/
theorem c8_cosine_guard (q v : List ℝ) :
    (Real.sqrt (sumSq q) = 0 ∨ Real.sqrt (sumSq v) = 0 → cosineSimilarity q v = 0) ∧
    (0 < Real.sqrt (sumSq q) → 0 < Real.sqrt (sumSq v) →
      Real.sqrt (sumSq q) * Real.sqrt (sumSq v) ≠ 0 ∧
      cosineSimilarity q v =
        dotList q v / (Real.sqrt (sumSq q) * Real.sqrt (sumSq v))) := by
  constructor
  · intro h
    unfold cosineSimilarity
    rw [if_neg]
    rcases h with h | h
    · rintro ⟨h1, -⟩
      rw [h] at h1
      exact lt_irrefl 0 h1
    · rintro ⟨-, h2⟩
      rw [h] at h2
      exact lt_irrefl 0 h2
  · intro h1 h2
    refine ⟨ne_of_gt (mul_pos h1 h2), ?_⟩
    unfold cosineSimilarity
    rw [if_pos ⟨h1, h2⟩]

/-- C8 witness: the all-zero query vector against a unit chunk vector. -/
theorem c8_cosine_guard_witness :
    Real.sqrt (sumSq [(0:ℝ)]) = 0 ∧ cosineSimilarity [(0:ℝ)] [(1:ℝ)] = 0 := by
  have h : Real.sqrt (sumSq [(0:ℝ)]) = 0 := by
    simp [sumSq]
  exact ⟨h, (c8_cosine_guard [(0:ℝ)] [(1:ℝ)]).1 (Or.inl h)⟩

/-! ## C9: alignment of the in-memory chunk and embedding lists -/

/-- One store call preserves the alignment invariant. -/
theorem storeInv_preserved (embed : String → List ℚ) (st : StoreState) (op : StoreOp)
    (h : st.embeddings = st.chunks.map (fun c => embed c.text)) :
    (applyStoreOp embed st op).embeddings =
      (applyStoreOp embed st op).chunks.map (fun c => embed c.text) := by
  cases op with
  | clearOp => rfl
  | indexOp cs =>
    unfold applyStoreOp embed_and_index_chunks
    dsimp only
    split_ifs with hcs
    · exact h
    · simp [h]

/-- C9: after any sequence of `clear_vector_store` / `embed_and_index_chunks`
calls from module initialisation, the stored embedding list is exactly the
map of the embedding function over the stored chunks' texts — in particular
both lists have equal length and the i-th embedding is the embedding of the
i-th chunk's text, the pairing `search_chunks_in_store` relies on. -/
theorem c9_store_alignment (embed : String → List ℚ) (ops : List StoreOp) :
    (runStoreOps embed ops emptyStore).embeddings =
      (runStoreOps embed ops emptyStore).chunks.map (fun c => embed c.text) ∧
    (runStoreOps embed ops emptyStore).chunks.length =
      (runStoreOps embed ops emptyStore).embeddings.length := by
  have main : ∀ (ops' : List StoreOp) (st : StoreState),
      st.embeddings = st.chunks.map (fun c => embed c.text) →
      (runStoreOps embed ops' st).embeddings =
        (runStoreOps embed ops' st).chunks.map (fun c => embed c.text) := by
    intro ops'
    induction ops' with
    | nil => exact fun st h => h
    | cons op rest ih =>
      intro st h
      exact ih _ (storeInv_preserved embed st op h)
  have h := main ops emptyStore rfl
  exact ⟨h, by rw [h, List.length_map]⟩

end VSE
